import Mathlib

/-!
Verification of the ATPM (anonymous tokens with public metadata) engine.

The Rust crate works over prime-order cyclic groups (BLS12-381 G1/G2 with a
pairing, Ristretto255, secp256k1).  Every group element the code manipulates
is obtained from the fixed generator and the group operations, so a group of
prime order q is represented by the discrete logarithm of its elements: a
point is a `ZMod q` wrapped in `Pt q`, scalar multiplication is field
multiplication of the exponent, and the bilinear pairing
e(a·g1, b·g2) = e(g1,g2)^(a*b) is exponent multiplication.  Hash oracles
(h_1 / h_t, h_m / hash_to_scalar, the DLEQ transcript hash, SHA-512 for the
hidden-metadata tag) are parameters: the engine treats them as black boxes.

Scalar inversion in both backends (bls12_381 `Scalar::invert`,
curve25519-dalek `Scalar::invert`) is exponentiation by the group order
minus two; it is modelled as `a ^ (q - 2)`, which also reproduces the
convention that inverting zero yields zero.  bls12_381 wraps the result in a
`CtOption` whose presence bit is the flag "input nonzero"; that is modelled
as an `Option` that is `none` exactly on zero input.
-/

namespace ATPM

/-- A group element of the prime-order group, represented by its discrete
logarithm with respect to the fixed generator. -/
structure Pt (q : ℕ) where
  dlog : ZMod q
deriving DecidableEq

/-- The group identity (`G1Affine::identity()` / `RistrettoPoint::identity()`). -/
def Pt.id (q : ℕ) : Pt q := ⟨0⟩

/-- The fixed generator of the group (`G1Affine::generator()`,
`G2Affine::generator()`, `RISTRETTO_BASEPOINT_POINT`). -/
def gen (q : ℕ) : Pt q := ⟨1⟩

/-- Scalar multiplication `point * scalar`. -/
def Pt.smul {q : ℕ} (s : ZMod q) (p : Pt q) : Pt q := ⟨s * p.dlog⟩

/-- Group addition of two points. -/
def Pt.add {q : ℕ} (p r : Pt q) : Pt q := ⟨p.dlog + r.dlog⟩

/-- Group negation of a point. -/
def Pt.neg {q : ℕ} (p : Pt q) : Pt q := ⟨-p.dlog⟩

/-- The bilinear pairing `Bls12::pairing : G1 × G2 → GT`; on discrete
logarithms it multiplies the exponents. -/
def pairing {q : ℕ} (a b : Pt q) : Pt q := ⟨a.dlog * b.dlog⟩

/-- Scalar inversion as both backends implement it: exponentiation by the
order minus two (`Scalar::invert`).  Sends zero to zero. -/
def scalarInvert {q : ℕ} (a : ZMod q) : ZMod q := a ^ (q - 2)

/-- bls12_381 `Scalar::invert`: a `CtOption` whose presence bit is the flag
"input is nonzero"; the value is the pow-based inverse. -/
def ctInvert {q : ℕ} (a : ZMod q) : Option (ZMod q) :=
  if a = 0 then none else some (scalarInvert a)

theorem scalarInvert_eq_inv {q : ℕ} [Fact q.Prime] (a : ZMod q) (ha : a ≠ 0) :
    scalarInvert a = a⁻¹ := by
  have hq : Nat.Prime q := Fact.out
  have h2 : 2 ≤ q := hq.two_le
  have hpow : a ^ (q - 2) * a = 1 := by
    have : a ^ (q - 2) * a = a ^ (q - 1) := by
      rw [← pow_succ]
      congr 1
      omega
    rw [this, ZMod.pow_card_sub_one_eq_one ha]
  have hpow' : a * a ^ (q - 2) = 1 := by rw [mul_comm]; exact hpow
  have := eq_inv_of_mul_eq_one_right hpow'
  simpa [scalarInvert] using this

theorem scalarInvert_zero {q : ℕ} (h2 : 2 < q) : scalarInvert (0 : ZMod q) = 0 := by
  have : q - 2 ≠ 0 := by omega
  simp [scalarInvert, zero_pow this]

theorem ctInvert_eq_none_iff {q : ℕ} (a : ZMod q) : ctInvert a = none ↔ a = 0 := by
  unfold ctInvert
  by_cases h : a = 0 <;> simp [h]

theorem ctInvert_of_ne {q : ℕ} [Fact q.Prime] (a : ZMod q) (ha : a ≠ 0) :
    ctInvert a = some a⁻¹ := by
  simp [ctInvert, ha, scalarInvert_eq_inv a ha]

/-! ## Byte strings, hashes and domain-separation tags

Bytes are natural numbers, byte strings are lists.  A SHA hasher is modelled
by its accumulated input: `update` appends, `finalize` applies the (abstract)
compression function to the accumulated input. -/

/-- `hasher.update(data)`: append the data to the accumulated hash input. -/
def hasherUpdate (st data : List ℕ) : List ℕ := st ++ data

/-- Little-endian interpretation of a byte string as a natural number
(`Scalar::from_bytes_wide` input convention). -/
def bytesToNatLE : List ℕ → ℕ
  | [] => 0
  | b :: bs => b + 256 * bytesToNatLE bs

/-- Big-endian interpretation (`FieldBytes` convention of the k256 backend). -/
def bytesToNatBE (bs : List ℕ) : ℕ := bytesToNatLE bs.reverse

/-- `Scalar::from_bytes_wide` / `Scalar::from_hash`: reduce the full digest
modulo the group order. -/
def fromBytesWide (q : ℕ) (bs : List ℕ) : ZMod q := (bytesToNatLE bs : ZMod q)

/-- Canonical scalar decode (`ScalarBytes::try_from`): succeeds only when the
digest, read as an integer, is below the modulus. -/
def canonDecode (n : ℕ) (bs : List ℕ) : Option (ZMod n) :=
  if bytesToNatBE bs < n then some ((bytesToNatBE bs : ZMod n)) else none

/-- Domain tag of the pairing variant's default `h_m` (`h_m_reduce_modulus`):
the ASCII bytes of "this is h_m_biased". -/
def hmBiasedTag : List ℕ :=
  [116, 104, 105, 115, 32, 105, 115, 32, 104, 95, 109, 95, 98, 105, 97, 115, 101, 100]

/-- Domain tag of the feature-gated uniform `h_m` (`h_m_uniform`): the ASCII
bytes of "this is h_m_uniform". -/
def hmUniformTag : List ℕ :=
  [116, 104, 105, 115, 32, 105, 115, 32, 104, 95, 109, 95, 117, 110, 105, 102, 111, 114, 109]

/-- Domain tag of `hash_to_scalar` in both NIZKP variants: the ASCII bytes of
"This is hash_to_scalar hash". -/
def hashToScalarTag : List ℕ :=
  [84, 104, 105, 115, 32, 105, 115, 32, 104, 97, 115, 104, 95, 116, 111, 95, 115,
   99, 97, 108, 97, 114, 32, 104, 97, 115, 104]

/-- Domain tag of the hidden-metadata tag hash: ASCII of
"Domain of hidden metadata". -/
def hiddenMetadataTag : List ℕ :=
  [68, 111, 109, 97, 105, 110, 32, 111, 102, 32, 104, 105, 100, 100, 101, 110, 32,
   109, 101, 116, 97, 100, 97, 116, 97]

/-- Domain tag of k256 `h_t`: ASCII of "This is h_t hash". -/
def htTag : List ℕ :=
  [84, 104, 105, 115, 32, 105, 115, 32, 104, 95, 116, 32, 104, 97, 115, 104]

/-- Domain tag of k256 `hash_to_curve`: ASCII of "This is hash to curve". -/
def hashToCurveTag : List ℕ :=
  [84, 104, 105, 115, 32, 105, 115, 32, 104, 97, 115, 104, 32, 116, 111, 32, 99,
   117, 114, 118, 101]

/-- The byte stream fed to SHA-512 by the pairing variant's default `h_m`
(`h_m_reduce_modulus`): tag update followed by metadata update. -/
def hmInputBytes (md : List ℕ) : List ℕ :=
  hasherUpdate (hasherUpdate [] hmBiasedTag) md

/-- Pairing variant `h_m` (default build, `h_m_reduce_modulus`): SHA-512 of
the tagged input, reduced modulo the order (`Scalar::from_bytes_wide`). -/
def hmPairing (q : ℕ) (sha512 : List ℕ → List ℕ) (md : List ℕ) : ZMod q :=
  fromBytesWide q (sha512 (hmInputBytes md))

/-- The byte stream fed to SHA-512 by the Ristretto `hash_to_scalar`. -/
def ristrettoHsInputBytes (data : List ℕ) : List ℕ :=
  hasherUpdate (hasherUpdate [] hashToScalarTag) data

/-- Ristretto255 `hash_to_scalar`: SHA-512 of the tagged input, wide-reduced
into a scalar by `Scalar::from_hash`. -/
def ristrettoHashToScalar (q : ℕ) (sha512 : List ℕ → List ℕ) (data : List ℕ) : ZMod q :=
  fromBytesWide q (sha512 (ristrettoHsInputBytes data))

/-- The digest chain of the k256 `hash_to_scalar` rejection loop: entry 0 is
the digest of the tagged data, entry j+1 is the digest of the tagged entry j
(on a decode failure the previous digest is re-fed as data). -/
def k256Digest (sha256 : List ℕ → List ℕ) (data : List ℕ) : ℕ → List ℕ
  | 0 => sha256 (hashToScalarTag ++ data)
  | j + 1 => sha256 (hashToScalarTag ++ k256Digest sha256 data j)

/-- k256 `hash_to_scalar`: rejection sampling with explicit fuel (the Rust
recursion has no termination bound; `none` models exhausting the fuel). -/
def k256HashToScalar (n : ℕ) (sha256 : List ℕ → List ℕ) : ℕ → List ℕ → Option (ZMod n)
  | 0, _ => none
  | fuel + 1, data =>
    let b := sha256 (hasherUpdate (hasherUpdate [] hashToScalarTag) data)
    match canonDecode n b with
    | some s => some s
    | none => k256HashToScalar n sha256 fuel b

/-! ## Token identifiers (src/common.rs) -/

/-- `TokenIdentifier`: either a bare 16-byte id or an id together with hidden
metadata bytes. -/
inductive TokenIdentifier where
  | Id : List ℕ → TokenIdentifier
  | WithHidden : List ℕ → List ℕ → TokenIdentifier
deriving DecidableEq

/-- `Into<[u8;16]> for &TokenIdentifier`: the 16-byte tag consumed by the
hash oracles.  The `Id` bytes pass through verbatim; the `WithHidden` variant
takes the first 16 bytes of SHA-512("Domain of hidden metadata" ‖ h ‖ t). -/
def tidTag (sha512 : List ℕ → List ℕ) : TokenIdentifier → List ℕ
  | .Id t => t
  | .WithHidden t h =>
    (sha512 (hasherUpdate (hasherUpdate (hasherUpdate [] hiddenMetadataTag) h) t)).take 16

/-- `PartialEq for TokenIdentifier`: compare the two consumed tags with a
byte-wise xor fold that does not short-circuit. -/
def tidEq (sha512 : List ℕ → List ℕ) (a b : TokenIdentifier) : Bool :=
  ((tidTag sha512 a).zip (tidTag sha512 b)).foldl
    (fun s p => (p.1 ^^^ p.2 == 0) && s) true

/-- The hash oracles every engine variant consumes, as abstract parameters:
`hOne` is the hash-to-curve oracle (`h_1` / `h_t`), `hM` the bytes-to-scalar
oracle (`h_m` / `hash_to_scalar`), `sha512` the hash backing the
hidden-metadata tag, and `dleqHash` the DLEQ transcript hash
(arguments: U, T, W, A, B; the generator is a fixed prefix inside). -/
structure Oracles (q : ℕ) where
  hOne : List ℕ → List ℕ → Pt q
  hM : List ℕ → ZMod q
  sha512 : List ℕ → List ℕ
  dleqHash : Pt q → Pt q → Pt q → Pt q → Pt q → ZMod q

/-! ## Pairing variant, single tokens (src/atpm_pairing/tokens.rs) -/

/-- `PairingUnsignedToken { id, metadata }`. -/
structure PairingUnsignedToken (q : ℕ) where
  id : TokenIdentifier
  metadata : List ℕ
deriving DecidableEq

/-- `RandomizedUnsignedToken { point, metadata }` (pairing variant). -/
structure PairingRandomizedUnsignedToken (q : ℕ) where
  point : Pt q
  metadata : List ℕ
deriving DecidableEq

/-- `RandomizedSignedToken { point, metadata }` (pairing variant). -/
structure PairingRandomizedSignedToken (q : ℕ) where
  point : Pt q
  metadata : List ℕ
deriving DecidableEq

/-- `PairingSignedToken { id, metadata, signature }`. -/
structure PairingSignedToken (q : ℕ) where
  id : TokenIdentifier
  metadata : List ℕ
  signature : Pt q
deriving DecidableEq

/-- `PairingSignedToken::eq`: non-short-circuiting comparison of id tags,
signature points, and the zipped metadata bytes. -/
def pairingTokenEq {q : ℕ} (sha512 : List ℕ → List ℕ)
    (a b : PairingSignedToken q) : Bool :=
  let same_id := tidEq sha512 a.id b.id
  let same_signature := decide (a.signature = b.signature)
  let same_metadata :=
    (a.metadata.zip b.metadata).foldl (fun s p => (p.1 == p.2) && s) true
  same_signature && same_id && same_metadata

/-- `PairingSignedToken::verify`: recompute t = h_1(tag, M) and
u = g2·h_m(M) + pk and test e(W, u) == e(t, g2). -/
def pairingVerify {q : ℕ} (O : Oracles q) (tok : PairingSignedToken q)
    (pk : Pt q) : Bool :=
  let t := tidTag O.sha512 tok.id
  let tPoint := O.hOne t tok.metadata
  let u := Pt.add (Pt.smul (O.hM tok.metadata) (gen q)) pk
  decide (pairing tok.signature u = pairing tPoint (gen q))

/-- `PairingTokenEngine::randomize`, with the sampled scalar `r` made
explicit (the source loops over fresh draws until `r.invert()` succeeds and
then computes U' = h_1(tag, M) * r⁻¹). -/
def pairingRandomize {q : ℕ} (O : Oracles q) (ut : PairingUnsignedToken q)
    (r : ZMod q) : ZMod q × PairingRandomizedUnsignedToken q :=
  let t := O.hOne (tidTag O.sha512 ut.id) ut.metadata
  (r, ⟨Pt.smul (scalarInvert r) t, ut.metadata⟩)

/-- `PairingTokenEngine::sign_randomized`: W' = (h_m(M)+sk)⁻¹ · U', present
exactly when the inversion succeeds. -/
def pairingSignRandomized {q : ℕ} (O : Oracles q)
    (tp : PairingRandomizedUnsignedToken q) (sk : ZMod q) :
    Option (PairingRandomizedSignedToken q) :=
  let d := O.hM tp.metadata
  (ctInvert (d + sk)).map (fun inv => ⟨Pt.smul inv tp.point, tp.metadata⟩)

/-- `PairingTokenEngine::verify_signature_and_unrandomize`: unblind
W = W' * r and accept iff e(W, g2·h_m(M)+pk) == e(h_1(tag,M), g2). -/
def pairingVerifyUnrand {q : ℕ} (O : Oracles q) (ut : PairingUnsignedToken q)
    (st : PairingRandomizedSignedToken q) (pk : Pt q) (r : ZMod q) :
    Option (PairingSignedToken q) :=
  let u := Pt.add (Pt.smul (O.hM ut.metadata) (gen q)) pk
  let w := Pt.smul r st.point
  let t := tidTag O.sha512 ut.id
  if pairing w u = pairing (O.hOne t ut.metadata) (gen q) then
    some ⟨ut.id, ut.metadata, w⟩
  else
    none

/-- `TokenEngine::sign` (src/common.rs), pairing instance: randomize, query
the signing oracle, bail out on an absent `CtOption`, then verify and
unrandomize.  The blinding scalar `r` is explicit. -/
def pairingSign {q : ℕ} (O : Oracles q) (ut : PairingUnsignedToken q)
    (pk : Pt q)
    (signFunc : PairingRandomizedUnsignedToken q →
      Option (PairingRandomizedSignedToken q))
    (r : ZMod q) : Option (PairingSignedToken q) :=
  let rru := pairingRandomize O ut r
  match signFunc rru.2 with
  | none => none
  | some st => pairingVerifyUnrand O ut st pk rru.1

/-! ## NIZKP (Ristretto255) variant, single tokens
(src/nizkp_curve25519/tokens.rs) -/

/-- `DLEQProof { c, z }`. -/
structure DLEQProof (q : ℕ) where
  c : ZMod q
  z : ZMod q
deriving DecidableEq

/-- `DLEQProof::create(t, w, k)`: nonce `r` explicit, A = g·r, B = W·r,
c = H(g·k, T, W, A, B), z = r − k·c. -/
def dleqCreate {q : ℕ} (O : Oracles q) (t w : Pt q) (k r : ZMod q) :
    DLEQProof q :=
  let a := Pt.smul r (gen q)
  let b := Pt.smul r w
  let c := O.dleqHash (Pt.smul k (gen q)) t w a b
  ⟨c, r - k * c⟩

/-- `DLEQProof::verify(t, w, u)`: A' = g·z + U·c, B' = W·z + T·c, accept iff
the recomputed transcript hash equals c. -/
def dleqVerify {q : ℕ} (O : Oracles q) (pf : DLEQProof q) (t w u : Pt q) :
    Bool :=
  let a := Pt.add (Pt.smul pf.z (gen q)) (Pt.smul pf.c u)
  let b := Pt.add (Pt.smul pf.z w) (Pt.smul pf.c t)
  decide (O.dleqHash u t w a b = pf.c)

/-- `NizkpUnsignedToken { id, metadata }`. -/
structure NizkpUnsignedToken (q : ℕ) where
  id : TokenIdentifier
  metadata : List ℕ
deriving DecidableEq

/-- NIZKP `RandomizedUnsignedToken { point, metadata }`. -/
structure NizkpRandomizedUnsignedToken (q : ℕ) where
  point : Pt q
  metadata : List ℕ
deriving DecidableEq

/-- NIZKP `RandomizedSignedToken { point, proof }`. -/
structure NizkpRandomizedSignedToken (q : ℕ) where
  point : Pt q
  proof : DLEQProof q
deriving DecidableEq

/-- `NizkpSignedToken { id, metadata, point }`. -/
structure NizkpSignedToken (q : ℕ) where
  id : TokenIdentifier
  metadata : List ℕ
  point : Pt q
deriving DecidableEq

/-- `NizkpSignedToken::verify`: accept iff W · (hash_to_scalar(M) + sk)
equals h_t(tag, M); the verification key is the private key. -/
def nizkpVerify {q : ℕ} (O : Oracles q) (tok : NizkpSignedToken q)
    (sk : ZMod q) : Bool :=
  let t := O.hOne (tidTag O.sha512 tok.id) tok.metadata
  let eInverse := O.hM tok.metadata + sk
  decide (Pt.smul eInverse tok.point = t)

/-- `NizkpTokenEngine::randomize` with the sampled `r` explicit: dalek's
`invert` is applied unconditionally (no zero check). -/
def nizkpRandomize {q : ℕ} (O : Oracles q) (ut : NizkpUnsignedToken q)
    (r : ZMod q) : ZMod q × NizkpRandomizedUnsignedToken q :=
  let t := O.hOne (tidTag O.sha512 ut.id) ut.metadata
  (r, ⟨Pt.smul (scalarInvert r) t, ut.metadata⟩)

/-- `NizkpTokenEngine::sign_randomized`: W' = (d+sk)⁻¹·U' with the DLEQ
proof, wrapped in `CtOption::new(_, Choice::from(1))` — the presence bit is
*always* one, so the model always returns `some`.  The DLEQ nonce is
explicit. -/
def nizkpSignRandomized {q : ℕ} (O : Oracles q)
    (tp : NizkpRandomizedUnsignedToken q) (sk : ZMod q) (rNonce : ZMod q) :
    Option (NizkpRandomizedSignedToken q) :=
  let d := O.hM tp.metadata
  let e := scalarInvert (d + sk)
  let w := Pt.smul e tp.point
  some ⟨w, dleqCreate O tp.point w (d + sk) rNonce⟩

/-- `NizkpTokenEngine::verify_signature_and_unrandomize`: check the DLEQ
proof against u = g·hash_to_scalar(M) + pk, then unblind W = W'·r. -/
def nizkpVerifyUnrand {q : ℕ} (O : Oracles q) (ut : NizkpUnsignedToken q)
    (rt : NizkpRandomizedUnsignedToken q) (st : NizkpRandomizedSignedToken q)
    (pk : Pt q) (r : ZMod q) : Option (NizkpSignedToken q) :=
  let u := Pt.add (Pt.smul (O.hM ut.metadata) (gen q)) pk
  if dleqVerify O st.proof rt.point st.point u then
    some ⟨ut.id, ut.metadata, Pt.smul r st.point⟩
  else
    none

/-- `TokenEngine::sign`, NIZKP instance, with the blinding scalar and the
oracle's DLEQ nonce explicit. -/
def nizkpSign {q : ℕ} (O : Oracles q) (ut : NizkpUnsignedToken q) (pk : Pt q)
    (signFunc : NizkpRandomizedUnsignedToken q →
      Option (NizkpRandomizedSignedToken q))
    (r : ZMod q) : Option (NizkpSignedToken q) :=
  let rru := nizkpRandomize O ut r
  match signFunc rru.2 with
  | none => none
  | some st => nizkpVerifyUnrand O ut rru.2 st pk rru.1

/-! ## Pairing variant, batched tokens (src/atpm_pairing/tokens_batched.rs)

Arrays `[_; N]` become lists; the deterministic RNG streams (the seeded
`StdRng` draws and the verifier's fresh coefficients) become explicit list
arguments. -/

/-- `BatchedPairingUnsignedToken { ids, metadata }`. -/
structure BatchedPairingUnsignedToken (q : ℕ) where
  ids : List TokenIdentifier
  metadata : List ℕ
deriving DecidableEq

/-- Batched `BatchedRandomizedUnsignedToken { points, metadata }`. -/
structure BatchedRandomizedUnsignedToken (q : ℕ) where
  points : List (Pt q)
  metadata : List ℕ
deriving DecidableEq

/-- Batched `BatchedRandomizedSignedToken { points }`. -/
structure BatchedRandomizedSignedToken (q : ℕ) where
  points : List (Pt q)
deriving DecidableEq

/-- `BatchedPairingSignedToken { ids, metadata, signatures }`. -/
structure BatchedPairingSignedToken (q : ℕ) where
  ids : List TokenIdentifier
  metadata : List ℕ
  signatures : List (Pt q)
deriving DecidableEq

/-- `BatchedPairingSignedTokenIterator`: the N single tokens of a batch, in
slot order (slot i carries ids[i], the shared metadata, signatures[i]). -/
def batchTokens {q : ℕ} (b : BatchedPairingSignedToken q) :
    List (PairingSignedToken q) :=
  (b.ids.zip b.signatures).map (fun p => ⟨p.1, b.metadata, p.2⟩)

/-- `BatchedPairingSignedToken::verify`: fold the slots zipped with the
freshly drawn random coefficients into T = Σ ρ_i·h_1(tag_i, M) and
W = Σ ρ_i·W_i, then test e(W, g2·h_m(M)+pk) == e(T, g2).  The coefficient
stream (`repeat_with(|| random_biased(rng))`) is the explicit `coeffs`. -/
def batchedPairingVerify {q : ℕ} (O : Oracles q)
    (b : BatchedPairingSignedToken q) (pk : Pt q) (coeffs : List (ZMod q)) :
    Bool :=
  let tw := ((b.ids.zip b.signatures).zip coeffs).foldl
    (fun (acc : Pt q × Pt q) x =>
      (Pt.add acc.1 (Pt.smul x.2 (O.hOne (tidTag O.sha512 x.1.1) b.metadata)),
       Pt.add acc.2 (Pt.smul x.2 x.1.2)))
    (Pt.id q, Pt.id q)
  let u := Pt.add (Pt.smul (O.hM b.metadata) (gen q)) pk
  decide (pairing tw.2 u = pairing tw.1 (gen q))

/-- `verify_no_lin_comb`: the baseline batched verifier without the random
linear combination — plain sums of the slot points. -/
def verifyNoLinComb {q : ℕ} (O : Oracles q)
    (b : BatchedPairingSignedToken q) (pk : Pt q) : Bool :=
  let tw := (b.ids.zip b.signatures).foldl
    (fun (acc : Pt q × Pt q) x =>
      (Pt.add acc.1 (O.hOne (tidTag O.sha512 x.1) b.metadata),
       Pt.add acc.2 x.2))
    (Pt.id q, Pt.id q)
  let u := Pt.add (Pt.smul (O.hM b.metadata) (gen q)) pk
  decide (pairing tw.2 u = pairing tw.1 (gen q))

/-- The inversion fold inside `BatchedPairingTokenEngine::randomize`: invert
every drawn scalar, collapsing to `none` when any inversion fails. -/
def invertAll {q : ℕ} (rs : List (ZMod q)) : Option (List (ZMod q)) :=
  rs.foldl
    (fun acc e =>
      match acc, ctInvert e with
      | some v, some i => some (v ++ [i])
      | _, _ => none)
    (some [])

/-- `BatchedPairingTokenEngine::randomize`, with the seeded RNG's scalar
stream explicit: invert all draws (`none` asks the caller to retry with a
fresh seed, as the source does), then blind each slot point. -/
def batchedPairingRandomize {q : ℕ} (O : Oracles q)
    (ut : BatchedPairingUnsignedToken q) (rs : List (ZMod q)) :
    Option (List (ZMod q) × BatchedRandomizedUnsignedToken q) :=
  match invertAll rs with
  | none => none
  | some invs =>
    some (rs,
      ⟨(invs.zip ut.ids).map
        (fun p => Pt.smul p.1 (O.hOne (tidTag O.sha512 p.2) ut.metadata)),
       ut.metadata⟩)

/-- `BatchedPairingTokenEngine::sign_randomized`: one inversion of
h_m(M)+sk, applied to every slot point. -/
def batchedPairingSignRandomized {q : ℕ} (O : Oracles q)
    (rt : BatchedRandomizedUnsignedToken q) (sk : ZMod q) :
    Option (BatchedRandomizedSignedToken q) :=
  let d := O.hM rt.metadata
  (ctInvert (d + sk)).map (fun inv => ⟨rt.points.map (Pt.smul inv)⟩)

/-- `BatchedPairingTokenEngine::verify_signature_and_unrandomize`: rederive
the scalar stream from the seed (explicit `rs`), unblind each slot, then
check the *unweighted* summed pairing equation. -/
def batchedPairingVerifyUnrand {q : ℕ} (O : Oracles q)
    (ut : BatchedPairingUnsignedToken q) (st : BatchedRandomizedSignedToken q)
    (pk : Pt q) (rs : List (ZMod q)) :
    Option (BatchedPairingSignedToken q) :=
  let u := Pt.add (Pt.smul (O.hM ut.metadata) (gen q)) pk
  let signatures := (rs.zip st.points).map (fun p => Pt.smul p.1 p.2)
  let w := signatures.foldl Pt.add (Pt.id q)
  let t := ut.ids.foldl
    (fun s id => Pt.add s (O.hOne (tidTag O.sha512 id) ut.metadata)) (Pt.id q)
  if pairing w u = pairing t (gen q) then
    some ⟨ut.ids, ut.metadata, signatures⟩
  else
    none

/-- `TokenEngine::sign`, batched pairing instance, scalar stream explicit. -/
def batchedPairingSign {q : ℕ} (O : Oracles q)
    (ut : BatchedPairingUnsignedToken q) (pk : Pt q)
    (signFunc : BatchedRandomizedUnsignedToken q →
      Option (BatchedRandomizedSignedToken q))
    (rs : List (ZMod q)) : Option (BatchedPairingSignedToken q) :=
  match batchedPairingRandomize O ut rs with
  | none => none
  | some rru =>
    match signFunc rru.2 with
    | none => none
    | some st => batchedPairingVerifyUnrand O ut st pk rru.1

/-- The crafted batch of the `attack_no_lincomb` test: slot 0 carries
r · sign_randomized(Σ h_1(tag_i,M) · r⁻¹) — a genuine signature on the
blinded sum of all N honest token points — slots 1..N-2 carry the
compensating points `deltas`, and the last slot carries minus their sum. -/
def attackBatch {q : ℕ} (O : Oracles q) (ids : List TokenIdentifier)
    (md : List ℕ) (sk r : ZMod q) (deltas : List (Pt q)) :
    BatchedPairingSignedToken q :=
  let k := O.hM md + sk
  let sumT := (ids.map (fun id => O.hOne (tidTag O.sha512 id) md)).foldl
    Pt.add (Pt.id q)
  let w0 := Pt.smul r (Pt.smul (scalarInvert k) (Pt.smul (scalarInvert r) sumT))
  let last := Pt.neg (deltas.foldl Pt.add (Pt.id q))
  ⟨ids, md, w0 :: (deltas ++ [last])⟩

/-! ## k256 (secp256k1) NIZKP variant (src/atpm_nizkp/util.rs)

`bytes_to_curve` is `unimplemented!()`: the function panics before looking
at its bytes.  Panicking computations are modelled in `Except Unit`, with
`Except.error ()` the panic. -/

/-- k256 `bytes_to_curve`: the body is `unimplemented!()`, which panics
unconditionally. -/
def k256BytesToCurve (q : ℕ) (_bytes : List ℕ) : Except Unit (Option (Pt q)) :=
  Except.error ()

/-- k256 `hash_to_curve` (the retry helper), with fuel for the unbounded
recursion; every branch first runs `bytes_to_curve`. -/
def k256HashToCurve (q : ℕ) (sha256 : List ℕ → List ℕ) :
    ℕ → List ℕ → Except Unit (Pt q)
  | 0, _ => Except.error ()
  | fuel + 1, t =>
    let bytes := sha256 (hasherUpdate (hasherUpdate [] hashToCurveTag) t)
    match k256BytesToCurve q bytes with
    | Except.error e => Except.error e
    | Except.ok (some point) => Except.ok point
    | Except.ok none => k256HashToCurve q sha256 fuel bytes

/-- k256 `h_t`: hash tag ‖ t ‖ m, try `bytes_to_curve`, fall back to
`hash_to_curve`.  Since `bytes_to_curve` panics, so does every call. -/
def k256HT (q : ℕ) (sha256 : List ℕ → List ℕ) (fuel : ℕ) (t m : List ℕ) :
    Except Unit (Pt q) :=
  let bytes :=
    sha256 (hasherUpdate (hasherUpdate (hasherUpdate [] htTag) t) m)
  match k256BytesToCurve q bytes with
  | Except.error e => Except.error e
  | Except.ok (some point) => Except.ok point
  | Except.ok none => k256HashToCurve q sha256 fuel bytes

/-- k256 `sign_randomized` (src/atpm_nizkp/tokens.rs): like the pairing
variant, the `CtOption` of `(d+sk).invert()` is mapped through, so the
presence bit is zero exactly on a zero denominator.  (Only the point and the
presence bit are modelled; the DLEQ proof mirrors `dleqCreate`.) -/
def k256SignRandomizedPoint {q : ℕ} (O : Oracles q)
    (tp : NizkpRandomizedUnsignedToken q) (sk : ZMod q) : Option (Pt q) :=
  let d := O.hM tp.metadata
  (ctInvert (d + sk)).map (fun e => Pt.smul e tp.point)

/-! ## Helper lemmas -/

theorem Pt.eq_iff {q : ℕ} {p r : Pt q} : p = r ↔ p.dlog = r.dlog := by
  constructor
  · intro h
    rw [h]
  · intro h
    cases p
    cases r
    simpa using h

theorem xorFold_self (l : List ℕ) :
    (l.zip l).foldl (fun s p => (p.1 ^^^ p.2 == 0) && s) true = true := by
  induction l with
  | nil => rfl
  | cons a l ih => simpa [Nat.xor_self] using ih

theorem beqFold_append (l r : List ℕ) :
    (l.zip (l ++ r)).foldl (fun s p => (p.1 == p.2) && s) true = true := by
  induction l with
  | nil => rfl
  | cons a l ih => simpa using ih

/-- Concrete oracles over the five-element field, used to instantiate the
universally quantified theorems at checkable inputs. -/
def oracleA : Oracles 5 :=
  ⟨fun _ _ => ⟨1⟩, fun _ => 1, fun _ => [], fun _ _ _ a b => a.dlog + b.dlog + 1⟩

/-- A second concrete oracle whose bytes-to-scalar hash is the constant 3,
so that a signing key of 2 makes the signing denominator vanish. -/
def oracleB : Oracles 5 :=
  ⟨fun _ _ => ⟨1⟩, fun _ => 3, fun _ => [], fun _ _ _ a b => a.dlog + b.dlog + 1⟩

/-! ## Claims -/

/-- C10: `PairingSignedToken::eq` zips the two metadata byte strings and
folds over the common prefix only, so two tokens with equal id tags and
equal signature points compare equal whenever one metadata is a strict
prefix of the other, despite the metadata differing. -/
theorem pairingTokenEq_ignores_extra_metadata {q : ℕ}
    (sha512 : List ℕ → List ℕ) (id1 id2 : TokenIdentifier) (sig : Pt q)
    (md rest : List ℕ) (hid : tidTag sha512 id1 = tidTag sha512 id2)
    (hrest : rest ≠ []) :
    pairingTokenEq sha512 (⟨id1, md, sig⟩ : PairingSignedToken q)
      ⟨id2, md ++ rest, sig⟩ = true ∧ md ≠ md ++ rest := by
  constructor
  · have h1 : tidEq sha512 id1 id2 = true := by
      unfold tidEq
      rw [hid]
      exact xorFold_self _
    have h2 : (md.zip (md ++ rest)).foldl
        (fun s p => (p.1 == p.2) && s) true = true := beqFold_append md rest
    unfold pairingTokenEq
    simp [h1, h2]
  · intro h
    have hlen := congrArg List.length h
    rw [List.length_append] at hlen
    have : rest.length = 0 := by omega
    exact hrest (List.length_eq_zero.mp this)

/-- C10 witness: two concrete tokens, the second metadata a strict extension
of the first, compare equal. -/
theorem pairingTokenEq_ignores_extra_metadata_witness :
    pairingTokenEq (fun _ => []) (⟨.Id [7], [1], ⟨2⟩⟩ : PairingSignedToken 5)
      ⟨.Id [7], [1] ++ [9, 9], ⟨2⟩⟩ = true ∧ [1] ≠ [1] ++ [9, 9] :=
  pairingTokenEq_ignores_extra_metadata (fun _ => []) (.Id [7]) (.Id [7])
    ⟨2⟩ [1] [9, 9] rfl (by decide)

/-- C3: a token whose signature point is the honest signature under sk₁
(and is not the identity) is rejected by both the pairing verifier keyed
with pk₂ = g2·sk₂ and the NIZKP verifier keyed with sk₂, whenever
sk₁ ≠ sk₂. -/
theorem wrong_key_rejected {q : ℕ} [Fact q.Prime] (hq2 : 2 < q)
    (O : Oracles q) (sk1 sk2 : ZMod q) (tid : TokenIdentifier) (md : List ℕ)
    (hne : sk1 ≠ sk2)
    (hw : Pt.smul (scalarInvert (O.hM md + sk1))
      (O.hOne (tidTag O.sha512 tid) md) ≠ Pt.id q) :
    pairingVerify O
      ⟨tid, md, Pt.smul (scalarInvert (O.hM md + sk1))
        (O.hOne (tidTag O.sha512 tid) md)⟩ (⟨sk2⟩ : Pt q) = false ∧
    nizkpVerify O
      ⟨tid, md, Pt.smul (scalarInvert (O.hM md + sk1))
        (O.hOne (tidTag O.sha512 tid) md)⟩ sk2 = false := by
  have hk1 : O.hM md + sk1 ≠ 0 := by
    intro h0
    apply hw
    rw [h0, scalarInvert_zero hq2]
    simp [Pt.smul, Pt.id]
  have hinv := scalarInvert_eq_inv (O.hM md + sk1) hk1
  have ht : (O.hOne (tidTag O.sha512 tid) md).dlog ≠ 0 := by
    intro h0
    apply hw
    simp [Pt.smul, Pt.id, h0]
  have hkey : ¬((O.hM md + sk1)⁻¹ * (O.hOne (tidTag O.sha512 tid) md).dlog *
      (O.hM md + sk2) = (O.hOne (tidTag O.sha512 tid) md).dlog) := by
    intro heq
    have heq2 := congrArg (fun x => (O.hM md + sk1) * x) heq
    simp only [← mul_assoc] at heq2
    rw [mul_inv_cancel₀ hk1, one_mul] at heq2
    have h4 : (O.hOne (tidTag O.sha512 tid) md).dlog * (sk2 - sk1) = 0 := by
      linear_combination heq2
    rcases mul_eq_zero.mp h4 with h | h
    · exact ht h
    · exact hne (show sk1 = sk2 by linear_combination -h)
  constructor
  · rw [pairingVerify]
    simp only [pairing, Pt.smul, Pt.add, gen, hinv, Pt.mk.injEq,
      decide_eq_false_iff_not]
    intro h
    apply hkey
    linear_combination h
  · rw [nizkpVerify]
    simp only [Pt.smul, hinv, Pt.mk.injEq, decide_eq_false_iff_not]
    intro h
    apply hkey
    have hd := congrArg Pt.dlog h
    simp only [] at hd
    linear_combination hd

/-- C3 witness: with the concrete oracle, sk₁ = 1 and sk₂ = 2, the honestly
signed token is rejected by both verifiers. -/
theorem wrong_key_rejected_witness :
    pairingVerify oracleA
      ⟨.Id [], [], Pt.smul (scalarInvert (oracleA.hM [] + 1))
        (oracleA.hOne (tidTag oracleA.sha512 (.Id [])) [])⟩ (⟨2⟩ : Pt 5) = false ∧
    nizkpVerify oracleA
      ⟨.Id [], [], Pt.smul (scalarInvert (oracleA.hM [] + 1))
        (oracleA.hOne (tidTag oracleA.sha512 (.Id [])) [])⟩ 2 = false :=
  @wrong_key_rejected 5 ⟨by norm_num⟩ (by norm_num) oracleA 1 2 (.Id []) []
    (by decide) (by decide)

/-- Shared completeness core for the DLEQ proof: create-then-verify accepts
whenever the exponent is nonzero, W has the honest discrete logarithm and U
carries the exponent. -/
theorem dleqVerify_dleqCreate {q : ℕ} [Fact q.Prime] (O : Oracles q)
    (k rN : ZMod q) (t w u : Pt q) (hk : k ≠ 0)
    (hw : w.dlog = k⁻¹ * t.dlog) (hu : u.dlog = k) :
    dleqVerify O (dleqCreate O t w k rN) t w u = true := by
  obtain ⟨ud⟩ := u
  simp only at hu
  subst hu
  rw [dleqCreate, dleqVerify]
  simp only [Pt.smul, Pt.add, gen, hw, decide_eq_true_eq]
  congr 2
  · ring
  · ring
  · field_simp
    ring

/-- C9 (amended): DLEQ completeness for a *nonzero* exponent k — for every
transcript hash, every nonce and every point T, the proof created for
(T, W = k⁻¹·T, U = g·k) verifies. -/
theorem dleq_complete {q : ℕ} [Fact q.Prime] (O : Oracles q)
    (k rNonce : ZMod q) (t : Pt q) (hk : k ≠ 0) :
    dleqVerify O
      (dleqCreate O t (Pt.smul (scalarInvert k) t) k rNonce)
      t (Pt.smul (scalarInvert k) t) (Pt.smul k (gen q)) = true := by
  refine dleqVerify_dleqCreate O k rNonce t _ _ hk ?_ ?_
  · simp [Pt.smul, scalarInvert_eq_inv k hk]
  · simp [Pt.smul, gen]

/-- C9 witness: concrete completeness run with k = 2 over the five-element
field. -/
theorem dleq_complete_witness :
    dleqVerify oracleA
      (dleqCreate oracleA ⟨1⟩ (Pt.smul (scalarInvert 2) ⟨1⟩) 2 3)
      ⟨1⟩ (Pt.smul (scalarInvert 2) ⟨1⟩) (Pt.smul 2 (gen 5)) = true :=
  @dleq_complete 5 ⟨by norm_num⟩ oracleA 2 3 ⟨1⟩ (by decide)

/-- C1 (amended): end-to-end correctness given a nonzero blinding scalar and
a nonzero signing denominator h_m(M)+sk — in both variants the composite
sign (randomize, honest oracle, verify-and-unrandomize) yields a signed
token, and the terminal verifier (keyed with pk = g·sk in the pairing
variant, sk in the NIZKP variant) accepts it. -/
theorem sign_then_verify {q : ℕ} [Fact q.Prime] (O : Oracles q)
    (sk r rNonce : ZMod q) (tid : TokenIdentifier) (md : List ℕ)
    (hr : r ≠ 0) (hd : O.hM md + sk ≠ 0) :
    (∃ tok, pairingSign O ⟨tid, md⟩ (⟨sk⟩ : Pt q)
        (fun ru => pairingSignRandomized O ru sk) r = some tok ∧
      pairingVerify O tok ⟨sk⟩ = true) ∧
    (∃ tok, nizkpSign O ⟨tid, md⟩ (⟨sk⟩ : Pt q)
        (fun ru => nizkpSignRandomized O ru sk rNonce) r = some tok ∧
      nizkpVerify O tok sk = true) := by
  have hrinv := scalarInvert_eq_inv r hr
  have hdinv := scalarInvert_eq_inv _ hd
  have hct := ctInvert_of_ne _ hd
  constructor
  · rw [pairingSign]
    simp only [pairingRandomize, pairingSignRandomized, hrinv, hct,
      Option.map_some']
    rw [pairingVerifyUnrand]
    have hcond : pairing
        (Pt.smul r (Pt.smul (O.hM md + sk)⁻¹
          (Pt.smul r⁻¹ (O.hOne (tidTag O.sha512 tid) md))))
        (Pt.add (Pt.smul (O.hM md) (gen q)) ⟨sk⟩) =
        pairing (O.hOne (tidTag O.sha512 tid) md) (gen q) := by
      simp only [pairing, Pt.smul, Pt.add, gen, Pt.mk.injEq]
      field_simp
      ring
    rw [if_pos hcond]
    refine ⟨_, rfl, ?_⟩
    rw [pairingVerify]
    simp only [hcond, decide_eq_true_eq]
  · rw [nizkpSign]
    simp only [nizkpRandomize, nizkpSignRandomized, hrinv, hdinv]
    rw [nizkpVerifyUnrand]
    have hdleq : dleqVerify O
        (dleqCreate O (Pt.smul r⁻¹ (O.hOne (tidTag O.sha512 tid) md))
          (Pt.smul (O.hM md + sk)⁻¹
            (Pt.smul r⁻¹ (O.hOne (tidTag O.sha512 tid) md)))
          (O.hM md + sk) rNonce)
        (Pt.smul r⁻¹ (O.hOne (tidTag O.sha512 tid) md))
        (Pt.smul (O.hM md + sk)⁻¹
          (Pt.smul r⁻¹ (O.hOne (tidTag O.sha512 tid) md)))
        (Pt.add (Pt.smul (O.hM md) (gen q)) ⟨sk⟩) = true := by
      refine dleqVerify_dleqCreate O (O.hM md + sk) rNonce _ _ _ hd ?_ ?_
      · simp [Pt.smul]
      · simp [Pt.add, Pt.smul, gen]
    rw [if_pos hdleq]
    refine ⟨_, rfl, ?_⟩
    rw [nizkpVerify]
    simp only [Pt.smul, Pt.eq_iff, decide_eq_true_eq]
    field_simp
    ring

/-- C1 witness: a concrete honest run in both variants over the five-element
field, with sk = 1, blinding r = 2 and DLEQ nonce 3. -/
theorem sign_then_verify_witness :
    (∃ tok, pairingSign oracleA ⟨.Id [], []⟩ (⟨1⟩ : Pt 5)
        (fun ru => pairingSignRandomized oracleA ru 1) 2 = some tok ∧
      pairingVerify oracleA tok ⟨1⟩ = true) ∧
    (∃ tok, nizkpSign oracleA ⟨.Id [], []⟩ (⟨1⟩ : Pt 5)
        (fun ru => nizkpSignRandomized oracleA ru 1 3) 2 = some tok ∧
      nizkpVerify oracleA tok 1 = true) :=
  @sign_then_verify 5 ⟨by norm_num⟩ oracleA 1 2 3 (.Id []) []
    (by decide) (by decide)

/-- C1 counterexample: the unqualified claim fails when h_m(M)+sk = 0 — at
the concrete oracle with constant hash 3 and sk = 2 the composite sign
returns `none` in both variants instead of a signed token. -/
theorem sign_then_verify_cex :
    pairingSign oracleB ⟨.Id [], []⟩ (⟨2⟩ : Pt 5)
        (fun ru => pairingSignRandomized oracleB ru 2) 1 = none ∧
    nizkpSign oracleB ⟨.Id [], []⟩ (⟨2⟩ : Pt 5)
        (fun ru => nizkpSignRandomized oracleB ru 2 0) 1 = none ∧
    oracleB.hM [] + 2 = 0 := by decide

/-- C2 (amended): in the pairing and secp256k1 variants `sign_randomized`
is absent exactly when h_m(M)+sk = 0 and otherwise scales the input point by
the inverse; the curve25519 NIZKP variant always reports presence (its
`CtOption` bit is the constant 1), scaling by the inverse when the
denominator is nonzero and collapsing to the identity point when it is
zero. -/
theorem sign_randomized_presence {q : ℕ} [Fact q.Prime] (hq2 : 2 < q)
    (O : Oracles q) (tp : PairingRandomizedUnsignedToken q)
    (tpn : NizkpRandomizedUnsignedToken q) (sk rN : ZMod q) :
    (pairingSignRandomized O tp sk = none ↔ O.hM tp.metadata + sk = 0) ∧
    (O.hM tp.metadata + sk ≠ 0 →
      pairingSignRandomized O tp sk =
        some ⟨Pt.smul (O.hM tp.metadata + sk)⁻¹ tp.point, tp.metadata⟩) ∧
    (nizkpSignRandomized O tpn sk rN).isSome = true ∧
    (O.hM tpn.metadata + sk ≠ 0 →
      (nizkpSignRandomized O tpn sk rN).map (fun s => s.point) =
        some (Pt.smul (O.hM tpn.metadata + sk)⁻¹ tpn.point)) ∧
    (O.hM tpn.metadata + sk = 0 →
      (nizkpSignRandomized O tpn sk rN).map (fun s => s.point) =
        some (Pt.id q)) ∧
    (k256SignRandomizedPoint O tpn sk = none ↔
      O.hM tpn.metadata + sk = 0) ∧
    (O.hM tpn.metadata + sk ≠ 0 →
      k256SignRandomizedPoint O tpn sk =
        some (Pt.smul (O.hM tpn.metadata + sk)⁻¹ tpn.point)) := by
  refine ⟨?_, ?_, ?_, ?_, ?_, ?_, ?_⟩
  · rw [pairingSignRandomized]
    simp only [Option.map_eq_none']
    exact ctInvert_eq_none_iff _
  · intro h
    rw [pairingSignRandomized]
    simp only [ctInvert_of_ne _ h, Option.map_some']
  · rfl
  · intro h
    rw [nizkpSignRandomized]
    simp only [scalarInvert_eq_inv _ h, Option.map_some']
  · intro h
    rw [nizkpSignRandomized]
    simp only [h, scalarInvert_zero hq2, Option.map_some']
    simp [Pt.smul, Pt.id]
  · rw [k256SignRandomizedPoint]
    simp only [Option.map_eq_none']
    exact ctInvert_eq_none_iff _
  · intro h
    rw [k256SignRandomizedPoint]
    simp only [ctInvert_of_ne _ h, Option.map_some']

/-- C2 witness: concrete instantiation — with hash value 1 and sk = 1 the
pairing oracle is present and scales by (1+1)⁻¹. -/
theorem sign_randomized_presence_witness :
    pairingSignRandomized oracleA (⟨⟨1⟩, []⟩ : PairingRandomizedUnsignedToken 5) 1 =
      some ⟨Pt.smul (oracleA.hM [] + 1)⁻¹ ⟨1⟩, []⟩ :=
  (@sign_randomized_presence 5 ⟨by norm_num⟩ (by norm_num) oracleA
    ⟨⟨1⟩, []⟩ ⟨⟨1⟩, []⟩ 1 0).2.1 (by decide)

/-- C2 counterexample: the curve25519 NIZKP `sign_randomized` reports a
present option even when h_m(M)+sk = 0 — its presence bit is not 0 in that
case, refuting the claim for that variant. -/
theorem sign_randomized_presence_cex :
    (nizkpSignRandomized oracleB (⟨⟨1⟩, []⟩ : NizkpRandomizedUnsignedToken 5)
      2 0).isSome = true ∧ oracleB.hM [] + 2 = 0 := by decide

/-- C9 counterexample: at k = 0 the claimed completeness fails — with a
concrete transcript hash the created proof does not verify, because
B' = W·z + T·c = T·c differs from B = W·r = identity. -/
theorem dleq_complete_cex :
    dleqVerify oracleA
      (dleqCreate oracleA ⟨1⟩ (Pt.smul (scalarInvert 0) ⟨1⟩) 0 0)
      ⟨1⟩ (Pt.smul (scalarInvert (0 : ZMod 5)) ⟨1⟩) (Pt.smul 0 (gen 5)) =
      false := by decide

/-- Modelled from the spec: the H_s construction exactly as the claim states
it — feed "This is hash_to_scalar hash" ‖ data into the hash, canonically
decode, and on failure re-hash the previous output and retry (fuel bounds
the unbounded retry loop). -/
def specHs (n : ℕ) (sha : List ℕ → List ℕ) : ℕ → List ℕ → Option (ZMod n)
  | 0, _ => none
  | fuel + 1, data =>
    let b := sha (hashToScalarTag ++ data)
    match canonDecode n b with
    | some s => some s
    | none => specHs n sha fuel b

theorem k256Digest_shift (sha256 : List ℕ → List ℕ) (data : List ℕ) :
    ∀ j, k256Digest sha256 (sha256 (hashToScalarTag ++ data)) j =
      k256Digest sha256 data (j + 1) := by
  intro j
  induction j with
  | zero => rfl
  | succ j ih => simp only [k256Digest, ih]

/-- C4 (amended): the Ristretto `hash_to_scalar` feeds
"This is hash_to_scalar hash" ‖ data into SHA-512 and wide-reduces the
digest (no rejection); the secp256k1 `hash_to_scalar` feeds the same tag
into SHA-256 and rejection-samples, returning the first digest of the
re-hash chain that canonically decodes; the pairing variant's `h_m`
(default build) instead feeds "this is h_m_biased" ‖ metadata into SHA-512
and wide-reduces. -/
theorem hash_oracle_structure (q n : ℕ) (sha512 sha256 : List ℕ → List ℕ)
    (md data : List ℕ) (fuel : ℕ) :
    hmPairing q sha512 md = fromBytesWide q (sha512 (hmBiasedTag ++ md)) ∧
    ristrettoHashToScalar q sha512 data =
      fromBytesWide q (sha512 (hashToScalarTag ++ data)) ∧
    (∀ s : ZMod n, k256HashToScalar n sha256 fuel data = some s →
      ∃ j < fuel, canonDecode n (k256Digest sha256 data j) = some s ∧
        ∀ i < j, canonDecode n (k256Digest sha256 data i) = none) := by
  refine ⟨?_, ?_, ?_⟩
  · simp [hmPairing, hmInputBytes, hasherUpdate]
  · simp [ristrettoHashToScalar, ristrettoHsInputBytes, hasherUpdate]
  · induction fuel generalizing data with
    | zero =>
      intro s h
      simp [k256HashToScalar] at h
    | succ fuel ih =>
      intro s h
      rw [k256HashToScalar] at h
      simp only [hasherUpdate, List.nil_append] at h
      rcases hdec : canonDecode n (sha256 (hashToScalarTag ++ data)) with _ | s0
      · rw [hdec] at h
        obtain ⟨j, hj, hsome, hnone⟩ := ih _ s h
        refine ⟨j + 1, by omega, ?_, ?_⟩
        · rw [← k256Digest_shift]
          exact hsome
        · intro i hi
          match i with
          | 0 => exact hdec
          | i + 1 =>
            rw [← k256Digest_shift]
            exact hnone i (by omega)
      · rw [hdec] at h
        refine ⟨0, by omega, ?_, by omega⟩
        rw [show k256Digest sha256 data 0 = sha256 (hashToScalarTag ++ data)
          from rfl, hdec]
        simpa using h

/-- C4 witness: a concrete rejection-sampling run of the k256
`hash_to_scalar` — the constant digest [3] decodes at once, so the chain
terminates at index 0. -/
theorem hash_oracle_structure_witness :
    ∃ j < 1, canonDecode 5 (k256Digest (fun _ => [3]) [] j) = some 3 ∧
      ∀ i < j, canonDecode 5 (k256Digest (fun _ => [3]) [] i) = none :=
  (hash_oracle_structure 5 5 (fun _ => [3]) (fun _ => [3]) [] [] 1).2.2 3
    (by decide)

/-- C4 counterexample: the pairing variant's `h_m` is not the claimed
construction — its hash input carries the tag "this is h_m_biased", not
"This is hash_to_scalar hash", and under one and the same compression
function the claimed H_s and the actual `h_m` return different scalars. -/
theorem hash_oracle_structure_cex :
    hmInputBytes [] ≠ hashToScalarTag ++ [] ∧
    specHs 5 (fun l => if l = hashToScalarTag ++ [] then [1] else [3]) 1 [] =
      some 1 ∧
    hmPairing 5 (fun l => if l = hashToScalarTag ++ [] then [1] else [3]) [] =
      3 := by
  refine ⟨by decide, by decide, by decide⟩

/-- C5: the secp256k1 `h_t` reaches the `unimplemented!()` panic inside
`bytes_to_curve` on every input — here evaluated at the all-zero 16-byte tag
and empty metadata. -/
theorem k256_ht_panics :
    k256HT 5 (fun _ => []) 3
      [0, 0, 0, 0, 0, 0, 0, 0, 0, 0, 0, 0, 0, 0, 0, 0] [] =
      Except.error () := rfl

/-! ## Fold-to-sum lemmas for the batched verifiers -/

/-- The fold of `batchedPairingVerify`, projected to the T-sum. -/
theorem batchedFold_fst {q : ℕ} (O : Oracles q) (md : List ℕ) :
    ∀ (l : List ((TokenIdentifier × Pt q) × ZMod q)) (p : Pt q × Pt q),
      (l.foldl (fun acc x =>
        (Pt.add acc.1 (Pt.smul x.2 (O.hOne (tidTag O.sha512 x.1.1) md)),
         Pt.add acc.2 (Pt.smul x.2 x.1.2))) p).1.dlog
        = p.1.dlog +
          (l.map (fun x => x.2 *
            (O.hOne (tidTag O.sha512 x.1.1) md).dlog)).sum
  | [], p => by simp
  | a :: l, p => by
    rw [List.foldl_cons, batchedFold_fst O md l]
    simp [Pt.add, Pt.smul, add_assoc]

/-- The fold of `batchedPairingVerify`, projected to the W-sum. -/
theorem batchedFold_snd {q : ℕ} (O : Oracles q) (md : List ℕ) :
    ∀ (l : List ((TokenIdentifier × Pt q) × ZMod q)) (p : Pt q × Pt q),
      (l.foldl (fun acc x =>
        (Pt.add acc.1 (Pt.smul x.2 (O.hOne (tidTag O.sha512 x.1.1) md)),
         Pt.add acc.2 (Pt.smul x.2 x.1.2))) p).2.dlog
        = p.2.dlog + (l.map (fun x => x.2 * x.1.2.dlog)).sum
  | [], p => by simp
  | a :: l, p => by
    rw [List.foldl_cons, batchedFold_snd O md l]
    simp [Pt.add, Pt.smul, add_assoc]

/-- The fold of `verifyNoLinComb`, projected to the T-sum. -/
theorem noLinFold_fst {q : ℕ} (O : Oracles q) (md : List ℕ) :
    ∀ (l : List (TokenIdentifier × Pt q)) (p : Pt q × Pt q),
      (l.foldl (fun acc x =>
        (Pt.add acc.1 (O.hOne (tidTag O.sha512 x.1) md),
         Pt.add acc.2 x.2)) p).1.dlog
        = p.1.dlog +
          (l.map (fun x => (O.hOne (tidTag O.sha512 x.1) md).dlog)).sum
  | [], p => by simp
  | a :: l, p => by
    rw [List.foldl_cons, noLinFold_fst O md l]
    simp [Pt.add, add_assoc]

/-- The fold of `verifyNoLinComb`, projected to the W-sum. -/
theorem noLinFold_snd {q : ℕ} (O : Oracles q) (md : List ℕ) :
    ∀ (l : List (TokenIdentifier × Pt q)) (p : Pt q × Pt q),
      (l.foldl (fun acc x =>
        (Pt.add acc.1 (O.hOne (tidTag O.sha512 x.1) md),
         Pt.add acc.2 x.2)) p).2.dlog
        = p.2.dlog + (l.map (fun x => x.2.dlog)).sum
  | [], p => by simp
  | a :: l, p => by
    rw [List.foldl_cons, noLinFold_snd O md l]
    simp [Pt.add, add_assoc]

/-- The T-sum fold of `batchedPairingVerifyUnrand`. -/
theorem unrandTFold {q : ℕ} (O : Oracles q) (md : List ℕ) :
    ∀ (l : List TokenIdentifier) (p : Pt q),
      (l.foldl (fun s id => Pt.add s (O.hOne (tidTag O.sha512 id) md)) p).dlog
        = p.dlog + (l.map (fun id => (O.hOne (tidTag O.sha512 id) md).dlog)).sum
  | [], p => by simp
  | a :: l, p => by
    rw [List.foldl_cons, unrandTFold O md l]
    simp [Pt.add, add_assoc]

theorem foldl_add_dlog_id {q : ℕ} :
    ∀ (l : List (Pt q)) (p : Pt q),
      (l.foldl Pt.add p).dlog = p.dlog + (l.map Pt.dlog).sum
  | [], p => by simp
  | a :: l, p => by
    rw [List.foldl_cons, foldl_add_dlog_id l]
    simp [Pt.add, add_assoc]

theorem sum_map_mul_right {q : ℕ} {α : Type} (f : α → ZMod q) (c : ZMod q) :
    ∀ l : List α, (l.map f).sum * c = (l.map (fun x => f x * c)).sum
  | [] => by simp
  | a :: l => by
    simp [sum_map_mul_right f c l, add_mul]

/-- Acceptance of the single-token pairing verifier, as a scalar equation on
discrete logarithms. -/
theorem pairingVerify_iff {q : ℕ} (O : Oracles q) (tok : PairingSignedToken q)
    (pk : Pt q) :
    pairingVerify O tok pk = true ↔
      tok.signature.dlog * (O.hM tok.metadata + pk.dlog) =
        (O.hOne (tidTag O.sha512 tok.id) tok.metadata).dlog := by
  rw [pairingVerify]
  simp [pairing, Pt.smul, Pt.add, gen, Pt.eq_iff]

/-- Acceptance of the batched pairing verifier, as a scalar equation on the
coefficient-weighted sums. -/
theorem batchedPairingVerify_iff {q : ℕ} (O : Oracles q)
    (b : BatchedPairingSignedToken q) (pk : Pt q) (coeffs : List (ZMod q)) :
    batchedPairingVerify O b pk coeffs = true ↔
      (((b.ids.zip b.signatures).zip coeffs).map
          (fun x => x.2 * x.1.2.dlog)).sum * (O.hM b.metadata + pk.dlog) =
      (((b.ids.zip b.signatures).zip coeffs).map
          (fun x => x.2 *
            (O.hOne (tidTag O.sha512 x.1.1) b.metadata).dlog)).sum := by
  rw [batchedPairingVerify]
  simp only [decide_eq_true_eq, pairing, Pt.eq_iff]
  rw [batchedFold_fst O b.metadata, batchedFold_snd O b.metadata]
  simp [Pt.id, Pt.smul, Pt.add, gen]

/-- Acceptance of the no-linear-combination baseline verifier, as a scalar
equation on the plain sums. -/
theorem verifyNoLinComb_iff {q : ℕ} (O : Oracles q)
    (b : BatchedPairingSignedToken q) (pk : Pt q) :
    verifyNoLinComb O b pk = true ↔
      ((b.ids.zip b.signatures).map (fun x => x.2.dlog)).sum *
          (O.hM b.metadata + pk.dlog) =
      ((b.ids.zip b.signatures).map
          (fun x => (O.hOne (tidTag O.sha512 x.1) b.metadata).dlog)).sum := by
  rw [verifyNoLinComb]
  simp only [decide_eq_true_eq, pairing, Pt.eq_iff]
  rw [noLinFold_fst O b.metadata, noLinFold_snd O b.metadata]
  simp [Pt.id, Pt.smul, Pt.add, gen]

/-- C6 (amended): the single-token verifiers are pure functions of token and
key, but the batched pairing verifier additionally consumes freshly drawn
random coefficients; its verdict is stable across draws on per-slot-valid
batches — any batch whose every single token passes the single-token
verifier is accepted under *every* coefficient draw — while crafted batches
exist on which two draws disagree (see the counterexample). -/
theorem batched_verify_stable_on_valid {q : ℕ} (O : Oracles q)
    (b : BatchedPairingSignedToken q) (pk : Pt q)
    (h : ∀ tok ∈ batchTokens b, pairingVerify O tok pk = true) :
    ∀ coeffs : List (ZMod q), batchedPairingVerify O b pk coeffs = true := by
  intro coeffs
  rw [batchedPairingVerify_iff]
  rw [sum_map_mul_right]
  apply congrArg List.sum
  apply List.map_congr_left
  intro x hx
  have hmem : x.1 ∈ b.ids.zip b.signatures := (List.of_mem_zip
    (by simpa using hx)).1
  have htok : (⟨x.1.1, b.metadata, x.1.2⟩ : PairingSignedToken q) ∈
      batchTokens b := by
    rw [batchTokens]
    exact List.mem_map_of_mem _ hmem
  have := (pairingVerify_iff O _ pk).mp (h _ htok)
  simp only at this
  calc x.2 * x.1.2.dlog * (O.hM b.metadata + pk.dlog)
      = x.2 * (x.1.2.dlog * (O.hM b.metadata + pk.dlog)) := by ring
    _ = x.2 * (O.hOne (tidTag O.sha512 x.1.1) b.metadata).dlog := by rw [this]

/-- C6 witness: a concrete per-slot-valid batch is accepted under an
arbitrary coefficient draw. -/
theorem batched_verify_stable_on_valid_witness :
    batchedPairingVerify oracleA
      (⟨[.Id []], [], [⟨3⟩]⟩ : BatchedPairingSignedToken 5) ⟨1⟩ [2, 4] =
      true :=
  batched_verify_stable_on_valid oracleA ⟨[.Id []], [], [⟨3⟩]⟩ ⟨1⟩
    (by decide) [2, 4]

/-- C6 counterexample: the batched pairing verifier is not a deterministic
function of token and key — on a crafted two-slot batch the draw (1,1)
accepts while the draw (1,2) rejects, so two invocations of `verify` on the
same token and key can return different booleans. -/
theorem batched_verify_stable_on_valid_cex :
    batchedPairingVerify oracleA
      (⟨[.Id [], .Id [1]], [], [⟨4⟩, ⟨2⟩]⟩ : BatchedPairingSignedToken 5)
      ⟨1⟩ [1, 1] = true ∧
    batchedPairingVerify oracleA
      (⟨[.Id [], .Id [1]], [], [⟨4⟩, ⟨2⟩]⟩ : BatchedPairingSignedToken 5)
      ⟨1⟩ [1, 2] = false := by decide

theorem zip_map_fst_sum {q : ℕ} {α β : Type} (g : α → ZMod q) :
    ∀ (l1 : List α) (l2 : List β), l1.length = l2.length →
      ((l1.zip l2).map (fun x => g x.1)).sum = (l1.map g).sum
  | [], [], _ => rfl
  | [], _ :: _, h => by simp at h
  | _ :: _, [], h => by simp at h
  | a :: l1, b :: l2, h => by
    simp only [List.zip_cons_cons, List.map_cons, List.sum_cons]
    rw [zip_map_fst_sum g l1 l2 (by simpa using h)]

theorem zip_map_snd_sum {q : ℕ} {α β : Type} (f : β → ZMod q) :
    ∀ (l1 : List α) (l2 : List β), l1.length = l2.length →
      ((l1.zip l2).map (fun x => f x.2)).sum = (l2.map f).sum
  | [], [], _ => rfl
  | [], _ :: _, h => by simp at h
  | _ :: _, [], h => by simp at h
  | a :: l1, b :: l2, h => by
    simp only [List.zip_cons_cons, List.map_cons, List.sum_cons]
    rw [zip_map_snd_sum f l1 l2 (by simpa using h)]

/-- C7 (amended): on a scenario-E crafted batch (one genuine signature on
the blinded sum of all slot points, compensating points that cancel in the
plain sum), the no-linear-combination baseline always accepts, while the
coefficient-weighted batched verifier rejects for every coefficient draw
outside the degenerate set where the weighted sums happen to satisfy the
accept equation (the counterexample shows an all-equal draw that is
accepted). -/
theorem attack_batch_behavior {q : ℕ} [Fact q.Prime] (O : Oracles q)
    (id0 : TokenIdentifier) (idrest : List TokenIdentifier) (md : List ℕ)
    (sk r : ZMod q) (deltas : List (Pt q)) (hr : r ≠ 0)
    (hk : O.hM md + sk ≠ 0) (hlen : idrest.length = deltas.length + 1) :
    verifyNoLinComb O (attackBatch O (id0 :: idrest) md sk r deltas)
      (⟨sk⟩ : Pt q) = true ∧
    ∀ (c0 : ZMod q) (crest : List (ZMod q)),
      c0 * (((id0 :: idrest).map
          (fun id => (O.hOne (tidTag O.sha512 id) md).dlog)).sum) +
        (O.hM md + sk) *
          (((idrest.zip
              (deltas ++ [Pt.neg (deltas.foldl Pt.add (Pt.id q))])).zip
            crest).map (fun x => x.2 * x.1.2.dlog)).sum ≠
      c0 * (O.hOne (tidTag O.sha512 id0) md).dlog +
        (((idrest.zip
            (deltas ++ [Pt.neg (deltas.foldl Pt.add (Pt.id q))])).zip
          crest).map (fun x => x.2 *
            (O.hOne (tidTag O.sha512 x.1.1) md).dlog)).sum →
      batchedPairingVerify O (attackBatch O (id0 :: idrest) md sk r deltas)
        (⟨sk⟩ : Pt q) (c0 :: crest) = false := by
  have hrinv := scalarInvert_eq_inv r hr
  have hkinv := scalarInvert_eq_inv _ hk
  have hlen2 : idrest.length =
      (deltas ++ [Pt.neg (deltas.foldl Pt.add (Pt.id q))]).length := by
    simp [hlen]
  have hw0 : (Pt.smul r (Pt.smul (scalarInvert (O.hM md + sk))
      (Pt.smul (scalarInvert r)
        (List.foldl Pt.add (Pt.id q)
          (O.hOne (tidTag O.sha512 id0) md ::
            List.map (fun id => O.hOne (tidTag O.sha512 id) md)
              idrest))))).dlog * (O.hM md + sk) =
      (O.hOne (tidTag O.sha512 id0) md).dlog +
        (idrest.map (fun id => (O.hOne (tidTag O.sha512 id) md).dlog)).sum := by
    simp only [Pt.smul, hrinv, hkinv]
    rw [foldl_add_dlog_id]
    simp only [Pt.id, List.map_cons, List.map_map, List.sum_cons, zero_add]
    have hcomp : (idrest.map
        ((fun p : Pt q => p.dlog) ∘ (fun id => O.hOne (tidTag O.sha512 id) md)))
        = (idrest.map
          (fun id => (O.hOne (tidTag O.sha512 id) md).dlog)) := rfl
    rw [hcomp]
    field_simp
    ring
  have hcancel : ((deltas ++
      [Pt.neg (deltas.foldl Pt.add (Pt.id q))]).map
        (fun p : Pt q => p.dlog)).sum = 0 := by
    rw [List.map_append, List.sum_append]
    simp only [List.map_cons, List.map_nil, List.sum_cons, List.sum_nil,
      Pt.neg]
    rw [foldl_add_dlog_id]
    simp [Pt.id]
  constructor
  · rw [verifyNoLinComb_iff]
    simp only [attackBatch, List.zip_cons_cons, List.map_cons, List.sum_cons]
    rw [zip_map_snd_sum (fun p : Pt q => p.dlog) idrest _ hlen2,
      zip_map_fst_sum (fun id =>
        (O.hOne (tidTag O.sha512 id) md).dlog) idrest _ hlen2]
    rw [hcancel, add_zero]
    exact hw0
  · intro c0 crest hne
    rw [Bool.eq_false_iff]
    intro hacc
    rw [batchedPairingVerify_iff] at hacc
    simp only [attackBatch, List.zip_cons_cons, List.map_cons,
      List.sum_cons] at hacc
    apply hne
    simp only [List.map_cons, List.sum_cons]
    linear_combination hacc - c0 * hw0

/-- C7 witness: a concrete three-slot scenario-E batch (compensating slots
carry the identity, as in the repository's own test) is accepted by the
baseline and rejected by the coefficient draw (1, 1, 2). -/
theorem attack_batch_behavior_witness :
    verifyNoLinComb oracleA
      (attackBatch oracleA [.Id [], .Id [1], .Id [2]] [] 1 1 [⟨0⟩])
      (⟨1⟩ : Pt 5) = true ∧
    batchedPairingVerify oracleA
      (attackBatch oracleA [.Id [], .Id [1], .Id [2]] [] 1 1 [⟨0⟩])
      (⟨1⟩ : Pt 5) [1, 1, 2] = false :=
  ⟨(@attack_batch_behavior 5 ⟨by norm_num⟩ oracleA (.Id [])
      [.Id [1], .Id [2]] [] 1 1 [⟨0⟩] (by decide) (by decide) (by decide)).1,
   (@attack_batch_behavior 5 ⟨by norm_num⟩ oracleA (.Id [])
      [.Id [1], .Id [2]] [] 1 1 [⟨0⟩] (by decide) (by decide) (by decide)).2
     1 [1, 2] (by decide)⟩

/-- C7 counterexample: the claim "the batched verify with random
coefficients returns false" is not true of every draw — the degenerate
all-equal draw (1, 1, 1) accepts the very same crafted batch. -/
theorem attack_batch_behavior_cex :
    batchedPairingVerify oracleA
      (attackBatch oracleA [.Id [], .Id [1], .Id [2]] [] 1 1 [⟨0⟩])
      (⟨1⟩ : Pt 5) [1, 1, 1] = true := by decide

/-! ## Support for the batched honest flow (C8) -/

theorem invertAll_none_absorb {q : ℕ} :
    ∀ rs : List (ZMod q),
      rs.foldl (fun acc e =>
        match acc, ctInvert e with
        | some v, some i => some (v ++ [i])
        | _, _ => none) none = none
  | [] => rfl
  | a :: rs => by
    rw [List.foldl_cons]
    rcases h : ctInvert a with _ | i
    · rw [show (match (none : Option (List (ZMod q))), ctInvert a with
        | some v, some i => some (v ++ [i])
        | _, _ => none) = none by rw [h]]
      exact invertAll_none_absorb rs
    · rw [show (match (none : Option (List (ZMod q))), ctInvert a with
        | some v, some i => some (v ++ [i])
        | _, _ => none) = none by rw [h]]
      exact invertAll_none_absorb rs

theorem invertAll_go {q : ℕ} :
    ∀ (rs v l : List (ZMod q)),
      rs.foldl (fun acc e =>
        match acc, ctInvert e with
        | some v, some i => some (v ++ [i])
        | _, _ => none) (some v) = some l →
      (∀ x ∈ rs, x ≠ 0) ∧ l = v ++ rs.map scalarInvert
  | [], v, l, h => by
    simp only [List.foldl_nil, Option.some.injEq] at h
    subst h
    simp
  | a :: rs, v, l, h => by
    rw [List.foldl_cons] at h
    by_cases ha : a = 0
    · rw [show (match (some v : Option (List (ZMod q))), ctInvert a with
        | some v, some i => some (v ++ [i])
        | _, _ => none) = none by
          rw [show ctInvert a = none by simp [ctInvert, ha]]] at h
      rw [invertAll_none_absorb] at h
      simp at h
    · rw [show (match (some v : Option (List (ZMod q))), ctInvert a with
        | some v, some i => some (v ++ [i])
        | _, _ => none) = some (v ++ [scalarInvert a]) by
          rw [show ctInvert a = some (scalarInvert a) by
            simp [ctInvert, ha]]] at h
      obtain ⟨hall, hl⟩ := invertAll_go rs (v ++ [scalarInvert a]) l h
      refine ⟨?_, ?_⟩
      · intro x hx
        rcases List.mem_cons.mp hx with rfl | hx
        · exact ha
        · exact hall x hx
      · rw [hl]
        simp

theorem invertAll_eq_some {q : ℕ} (rs l : List (ZMod q))
    (h : invertAll rs = some l) :
    (∀ x ∈ rs, x ≠ 0) ∧ l = rs.map scalarInvert := by
  rw [invertAll] at h
  simpa using invertAll_go rs [] l h

/-- Unblinding the honestly signed batch slots cancels the blinding: every
slot collapses to the common inverse times its hash point. -/
theorem honest_sigs {q : ℕ} [Fact q.Prime] (O : Oracles q) (md : List ℕ)
    (kinv : ZMod q) :
    ∀ (rs : List (ZMod q)) (ids : List TokenIdentifier),
      (∀ x ∈ rs, x ≠ 0) →
      (rs.zip ((((rs.map scalarInvert).zip ids).map
          (fun p => Pt.smul p.1 (O.hOne (tidTag O.sha512 p.2) md))).map
          (Pt.smul kinv))).map (fun p => Pt.smul p.1 p.2) =
      (rs.zip ids).map
        (fun p => Pt.smul kinv (O.hOne (tidTag O.sha512 p.2) md))
  | [], ids, _ => rfl
  | a :: rs, [], _ => rfl
  | a :: rs, id :: ids, hall => by
    simp only [List.map_cons, List.zip_cons_cons]
    rw [honest_sigs O md kinv rs ids (fun x hx => hall x (List.mem_cons_of_mem a hx))]
    have ha : a ≠ 0 := hall a (List.mem_cons_self a rs)
    have hinv := scalarInvert_eq_inv a ha
    congr 1
    rw [Pt.eq_iff]
    simp only [Pt.smul, hinv]
    field_simp

/-- Each slot of a batch whose signatures all equal the common inverse times
their hash point passes the single-token verifier. -/
theorem batch_all_valid {q : ℕ} [Fact q.Prime] (O : Oracles q) (md : List ℕ)
    (sk : ZMod q) (hk : O.hM md + sk ≠ 0) :
    ∀ (ids : List TokenIdentifier) (rs : List (ZMod q))
      (tok : PairingSignedToken q),
      tok ∈ batchTokens ⟨ids, md, (rs.zip ids).map
        (fun p => Pt.smul (O.hM md + sk)⁻¹
          (O.hOne (tidTag O.sha512 p.2) md))⟩ →
      pairingVerify O tok ⟨sk⟩ = true
  | [], rs, tok, h => by simp [batchTokens] at h
  | id :: ids, [], tok, h => by simp [batchTokens] at h
  | id :: ids, a :: rs, tok, h => by
    rw [batchTokens] at h
    simp only [List.map_cons, List.zip_cons_cons, List.mem_cons] at h
    rcases h with rfl | h
    · rw [pairingVerify_iff]
      simp only [Pt.smul]
      field_simp
    · exact batch_all_valid O md sk hk ids rs tok (by
        rw [batchTokens]
        simpa using h)

/-- C8: every single token yielded by the iterator of an honestly issued
batched pairing token (the batched composite sign under sk, with matching
pk = g2·sk) passes the single-token verifier with that pk. -/
theorem batch_iterate_verify {q : ℕ} [Fact q.Prime] (O : Oracles q)
    (ids : List TokenIdentifier) (md : List ℕ) (sk : ZMod q)
    (rs : List (ZMod q)) (b : BatchedPairingSignedToken q)
    (hsign : batchedPairingSign O ⟨ids, md⟩ (⟨sk⟩ : Pt q)
      (fun rt => batchedPairingSignRandomized O rt sk) rs = some b) :
    ∀ tok ∈ batchTokens b, pairingVerify O tok ⟨sk⟩ = true := by
  rw [batchedPairingSign, batchedPairingRandomize] at hsign
  rcases hia : invertAll (q := q) rs with _ | invs
  · rw [hia] at hsign
    simp at hsign
  rw [hia] at hsign
  obtain ⟨hall, hinvs⟩ := invertAll_eq_some rs invs hia
  subst hinvs
  simp only [batchedPairingSignRandomized] at hsign
  by_cases hk : O.hM md + sk = 0
  · rw [show ctInvert (O.hM md + sk) = none by simp [ctInvert, hk]] at hsign
    simp at hsign
  · rw [ctInvert_of_ne _ hk] at hsign
    simp only [Option.map_some'] at hsign
    rw [batchedPairingVerifyUnrand] at hsign
    set sigs := ((rs.zip ((((rs.map scalarInvert).zip ids).map
      (fun p => Pt.smul p.1 (O.hOne (tidTag O.sha512 p.2) md))).map
      (Pt.smul (O.hM md + sk)⁻¹))).map (fun p => Pt.smul p.1 p.2)) with hsigs
    split_ifs at hsign with hcond
    injection hsign with hsign2
    subst hsign2
    intro tok htok
    apply batch_all_valid O md sk hk ids rs tok
    rw [← honest_sigs O md ((O.hM md + sk)⁻¹) rs ids hall]
    exact htok

/-- C8 witness: a concrete two-slot honest batched run; the first single
token produced by the batch's iterator verifies individually. -/
theorem batch_iterate_verify_witness :
    pairingVerify oracleA (⟨.Id [], [], ⟨3⟩⟩ : PairingSignedToken 5) ⟨1⟩ =
      true :=
  @batch_iterate_verify 5 ⟨by norm_num⟩ oracleA [.Id [], .Id [1]] [] 1 [1, 2]
    ⟨[.Id [], .Id [1]], [], [⟨3⟩, ⟨3⟩]⟩ (by decide) ⟨.Id [], [], ⟨3⟩⟩
    (by decide)

end ATPM
